import Mathlib

/-!
Verification development for the directory-tree traversal and serialization
engine of the repository: the text-tree generator (`scanDirectory` and
`runFileStructureTool` in `src/tools/fileStructure.ts`) and the flowchart
generator (`scanDirectoryMermaid` in `src/tools/mermaidStructure.ts`).

The filesystem snapshot seen by one tool call is modelled as an inductive
tree `FSEntry`: a `readdir` on a directory returns its child list in the
order stored in the tree.  Machine `number` arguments that the code compares
with `>` are modelled as `Int` (the code is called with integers).  The
JavaScript string primitives used by the code are modelled on `List Char`:
`String.prototype.includes` as literal substring containment and
`localeCompare` as code-point lexicographic comparison returning -1/0/1
(the collation documented for this embedding).  `Array.prototype.sort` is
modelled as a stable insertion sort driven by the same comparator the code
passes to it.
-/

/-- One filesystem node: a file or a directory with its listed children. -/
inductive FSEntry where
  | file : String → FSEntry
  | dir : String → List FSEntry → FSEntry

/-- Base name of an entry (`entry.name` on a Dirent). -/
def FSEntry.name : FSEntry → String
  | .file n => n
  | .dir n _ => n

/-- Kind test (`entry.isDirectory()` on a Dirent). -/
def FSEntry.isDirectory : FSEntry → Bool
  | .file _ => false
  | .dir _ _ => true

/-- Result of `fs.readdir` on a node: the listed children (files have none). -/
def childEntries : FSEntry → List FSEntry
  | .file _ => []
  | .dir _ cs => cs

/-- Three-way comparison of single characters by code point. -/
def charCmp (a b : Char) : Ordering :=
  if a < b then .lt else if b < a then .gt else .eq

/-- Lexicographic three-way comparison of character lists. -/
def cmpCharList : List Char → List Char → Ordering
  | [], [] => .eq
  | [], _ :: _ => .lt
  | _ :: _, [] => .gt
  | a :: as, b :: bs =>
    match charCmp a b with
    | .eq => cmpCharList as bs
    | o => o

/-- Model of `a.localeCompare(b)`: -1, 0 or 1 under code-point collation. -/
def localeCompare (a b : String) : Int :=
  match cmpCharList a.data b.data with
  | .lt => -1
  | .eq => 0
  | .gt => 1

/-- Whether the first character list is an initial segment of the second. -/
def isPrefixOfL : List Char → List Char → Bool
  | [], _ => true
  | _ :: _, [] => false
  | a :: as, b :: bs => a == b && isPrefixOfL as bs

/-- Whether `needle` occurs as a contiguous run inside the second list. -/
def containsSub (needle : List Char) : List Char → Bool
  | [] => needle.isEmpty
  | c :: rest => isPrefixOfL needle (c :: rest) || containsSub needle rest

/-- Model of `s.includes(pat)`: literal case-sensitive substring test. -/
def strIncludes (s pat : String) : Bool := containsSub pat.data s.data

/-- Model of `excludePatterns.some(pattern => name.includes(pattern))`. -/
def isExcluded (patterns : List String) (nm : String) : Bool :=
  patterns.any (fun pat => strIncludes nm pat)

/-- The comparator both tools pass to `sort`: directories before files,
then `localeCompare` on names. -/
def entryCmp (a b : FSEntry) : Int :=
  if a.isDirectory == b.isDirectory then localeCompare a.name b.name
  else if a.isDirectory then -1 else 1

/-- Insert an entry into a comparator-sorted list, before the first element
it does not strictly follow (the stable position). -/
def insertEntry (x : FSEntry) : List FSEntry → List FSEntry
  | [] => [x]
  | y :: ys => if entryCmp x y ≤ 0 then x :: y :: ys else y :: insertEntry x ys

/-- Stable insertion sort under `entryCmp`, modelling
`entries.sort((a, b) => ...)`. -/
def sortEntries : List FSEntry → List FSEntry
  | [] => []
  | x :: xs => insertEntry x (sortEntries xs)

/-- The per-level list both scanners iterate over:
`entries.sort(cmp).filter(entry => !excludePatterns.some(...))`. -/
def preparedChildren (patterns : List String) (cs : List FSEntry) : List FSEntry :=
  (sortEntries cs).filter (fun e => !(isExcluded patterns e.name))

/-- Pair each element with `i === sortedEntries.length - 1`, the
`isLastEntry` flag of the source loop. -/
def withLastFlags : List FSEntry → List (FSEntry × Bool)
  | [] => []
  | [e] => [(e, true)]
  | e :: e' :: es => (e, false) :: withLastFlags (e' :: es)

example :
    sortEntries [.file "b.txt", .dir "a" [], .dir "c" [.file "z.txt"]] =
      [.dir "a" [], .dir "c" [.file "z.txt"], .file "b.txt"] := rfl

example : strIncludes "notatmp" "tmp" = true := rfl

example : strIncludes "abc" "" = true := rfl

example :
    preparedChildren ["node_modules"]
        [.dir "node_modules" [.file "x"], .file "a.txt"] =
      [.file "a.txt"] := rfl

theorem mem_of_mem_insertEntry {x y : FSEntry} {l : List FSEntry}
    (h : y ∈ insertEntry x l) : y = x ∨ y ∈ l := by
  induction l with
  | nil => simpa [insertEntry] using h
  | cons z zs ih =>
    simp only [insertEntry] at h
    split at h
    · simpa using h
    · rcases List.mem_cons.mp h with h | h
      · exact Or.inr (by simp [h])
      · rcases ih h with h | h
        · exact Or.inl h
        · exact Or.inr (List.mem_cons_of_mem _ h)

theorem mem_of_mem_sortEntries {y : FSEntry} {l : List FSEntry}
    (h : y ∈ sortEntries l) : y ∈ l := by
  induction l with
  | nil => simp [sortEntries] at h
  | cons x xs ih =>
    simp only [sortEntries] at h
    rcases mem_of_mem_insertEntry h with h | h
    · simp [h]
    · exact List.mem_cons_of_mem _ (ih h)

theorem mem_of_mem_prepared {y : FSEntry} {p : List String} {cs : List FSEntry}
    (h : y ∈ preparedChildren p cs) : y ∈ cs :=
  mem_of_mem_sortEntries (List.mem_of_mem_filter h)

theorem mem_of_mem_withLastFlags {q : FSEntry × Bool} {l : List FSEntry}
    (h : q ∈ withLastFlags l) : q.1 ∈ l := by
  induction l with
  | nil => simp [withLastFlags] at h
  | cons e es ih =>
    cases es with
    | nil => simp only [withLastFlags, List.mem_singleton] at h; simp [h]
    | cons e' es' =>
      simp only [withLastFlags] at h
      rcases List.mem_cons.mp h with h | h
      · simp [h]
      · exact List.mem_cons_of_mem _ (ih h)

theorem sizeOf_lt_of_mem_childEntries {e node : FSEntry}
    (h : e ∈ childEntries node) : sizeOf e < sizeOf node := by
  cases node with
  | file n => simp [childEntries] at h
  | dir n cs =>
    have := List.sizeOf_lt_of_mem h
    simp only [childEntries] at this
    simp only [FSEntry.dir.sizeOf_spec]
    omega

theorem sizeOf_lt_of_mem_scanStep {q : FSEntry × Bool} {p : List String} {node : FSEntry}
    (h : q ∈ withLastFlags (preparedChildren p (childEntries node))) :
    sizeOf q.1 < sizeOf node :=
  sizeOf_lt_of_mem_childEntries (mem_of_mem_prepared (mem_of_mem_withLastFlags h))

/-- Model of `scanDirectory` from `fileStructure.ts`.  The recursion mirrors
the source: return `[]` past the depth limit, read and prepare the children,
then for each child in order emit its connector line (and, for a directory,
the recursively scanned sublines), where `newPfx` extends the prefix by four
blanks when the CURRENT call was a last sibling and by the continuation
glyph otherwise, exactly as the source computes it from its `isLast`
parameter. -/
def scanDirectory (maxDepth : Int) (patterns : List String) (node : FSEntry)
    (pfx : String) (isLast : Bool) (depth : Nat) : List String :=
  if (depth : Int) > maxDepth then []
  else
    ((withLastFlags (preparedChildren patterns (childEntries node))).attach.map
      (fun x =>
        if x.1.1.isDirectory then
          (pfx ++ (if x.1.2 then "└── " else "├── ") ++ x.1.1.name ++ "/") ::
            scanDirectory maxDepth patterns x.1.1
              (pfx ++ (if isLast then "    " else "│   ")) x.1.2 (depth + 1)
        else
          [pfx ++ (if x.1.2 then "└── " else "├── ") ++ x.1.1.name])).flatten
termination_by sizeOf node
decreasing_by exact sizeOf_lt_of_mem_scanStep x.2

/-- Fuel-indexed companion of `scanDirectory` with the same body; structural
recursion on the fuel makes it evaluate by kernel reduction. -/
def scanDirectoryF (maxDepth : Int) (patterns : List String) :
    Nat → FSEntry → String → Bool → Nat → List String
  | 0, _, _, _, _ => []
  | fuel + 1, node, pfx, isLast, depth =>
    if (depth : Int) > maxDepth then []
    else
      ((withLastFlags (preparedChildren patterns (childEntries node))).map
        (fun q =>
          if q.1.isDirectory then
            (pfx ++ (if q.2 then "└── " else "├── ") ++ q.1.name ++ "/") ::
              scanDirectoryF maxDepth patterns fuel q.1
                (pfx ++ (if isLast then "    " else "│   ")) q.2 (depth + 1)
          else
            [pfx ++ (if q.2 then "└── " else "├── ") ++ q.1.name])).flatten

theorem attachMapEq {α β : Type} (l : List α) (f : {x // x ∈ l} → β) (g : α → β)
    (h : ∀ x : {x // x ∈ l}, f x = g x.1) : l.attach.map f = l.map g := by
  rw [← List.attach_map_val l g]
  exact List.map_congr_left (fun x _ => h x)

theorem scanDirectory_eq_fuel (maxDepth : Int) (patterns : List String) :
    ∀ (fuel : Nat) (node : FSEntry) (pfx : String) (isLast : Bool) (depth : Nat),
      maxDepth - (depth : Int) < (fuel : Int) →
      scanDirectory maxDepth patterns node pfx isLast depth =
        scanDirectoryF maxDepth patterns fuel node pfx isLast depth := by
  intro fuel
  induction fuel with
  | zero =>
    intro node pfx isLast depth h
    rw [scanDirectory, scanDirectoryF]
    have : (depth : Int) > maxDepth := by omega
    simp [this]
  | succ fuel ih =>
    intro node pfx isLast depth h
    rw [scanDirectory, scanDirectoryF]
    by_cases hd : (depth : Int) > maxDepth
    · simp [hd]
    · simp only [hd, if_false]
      congr 1
      refine attachMapEq _ _ _ ?_
      intro x
      by_cases hq : x.1.1.isDirectory
      · simp only [hq, if_true]
        rw [ih x.1.1 _ x.1.2 (depth + 1) (by omega)]
      · simp [hq]

/-- Fuel value that always satisfies the bound of `scanDirectory_eq_fuel`. -/
theorem fuel_bound (maxDepth : Int) (depth : Nat) :
    maxDepth - (depth : Int) < (((maxDepth + 1 - depth).toNat + 1 : Nat) : Int) := by
  have := Int.self_le_toNat (maxDepth + 1 - depth)
  push_cast
  omega

example :
    scanDirectory 3 []
        (.dir "root" [.file "b.txt", .dir "a" [], .dir "c" [.file "z.txt"]])
        "" true 0 =
      ["├── a/", "├── c/", "    └── z.txt", "└── b.txt"] := by
  rw [scanDirectory_eq_fuel 3 [] 5 _ "" true 0 (by norm_num)]
  decide

/-- Model of `entry.name.replace(/[^a-zA-Z0-9]/g, '_')`: every character
outside ASCII letters and digits becomes an underscore. -/
def sanitizeName (s : String) : String :=
  String.mk (s.data.map (fun c =>
    if ('a' ≤ c && c ≤ 'z') || ('A' ≤ c && c ≤ 'Z') || ('0' ≤ c && c ≤ '9') then c
    else '_'))

/-- Node identifier in `mermaidStructure.ts`:
the template literal of the parent id, an underscore and the sanitized name. -/
def nodeId (parentId : String) (nm : String) : String :=
  parentId ++ "_" ++ sanitizeName nm

theorem sizeOf_lt_of_mem_mermaidStep {e : FSEntry} {p : List String} {node : FSEntry}
    (h : e ∈ preparedChildren p (childEntries node)) : sizeOf e < sizeOf node :=
  sizeOf_lt_of_mem_childEntries (mem_of_mem_prepared h)

/-- Model of `scanDirectoryMermaid` from `mermaidStructure.ts`: for each
prepared child emit its node-declaration line and its edge line (and, for a
directory, the recursively generated sublines), with the child id built by
`nodeId` from the parent id. -/
def scanDirectoryMermaid (maxDepth : Int) (patterns : List String) (node : FSEntry)
    (parentId : String) (depth : Nat) : List String :=
  if (depth : Int) > maxDepth then []
  else
    ((preparedChildren patterns (childEntries node)).attach.map
      (fun x =>
        if x.1.isDirectory then
          ("    " ++ nodeId parentId x.1.name ++ "[" ++ x.1.name ++ "/]") ::
            ("    " ++ parentId ++ " --> " ++ nodeId parentId x.1.name) ::
              scanDirectoryMermaid maxDepth patterns x.1
                (nodeId parentId x.1.name) (depth + 1)
        else
          ["    " ++ nodeId parentId x.1.name ++ "[" ++ x.1.name ++ "]",
            "    " ++ parentId ++ " --> " ++ nodeId parentId x.1.name])).flatten
termination_by sizeOf node
decreasing_by exact sizeOf_lt_of_mem_mermaidStep x.2

/-- Fuel-indexed companion of `scanDirectoryMermaid`, evaluable by kernel
reduction. -/
def scanDirectoryMermaidF (maxDepth : Int) (patterns : List String) :
    Nat → FSEntry → String → Nat → List String
  | 0, _, _, _ => []
  | fuel + 1, node, parentId, depth =>
    if (depth : Int) > maxDepth then []
    else
      ((preparedChildren patterns (childEntries node)).map
        (fun e =>
          if e.isDirectory then
            ("    " ++ nodeId parentId e.name ++ "[" ++ e.name ++ "/]") ::
              ("    " ++ parentId ++ " --> " ++ nodeId parentId e.name) ::
                scanDirectoryMermaidF maxDepth patterns fuel e
                  (nodeId parentId e.name) (depth + 1)
          else
            ["    " ++ nodeId parentId e.name ++ "[" ++ e.name ++ "]",
              "    " ++ parentId ++ " --> " ++ nodeId parentId e.name])).flatten

theorem scanDirectoryMermaid_eq_fuel (maxDepth : Int) (patterns : List String) :
    ∀ (fuel : Nat) (node : FSEntry) (parentId : String) (depth : Nat),
      maxDepth - (depth : Int) < (fuel : Int) →
      scanDirectoryMermaid maxDepth patterns node parentId depth =
        scanDirectoryMermaidF maxDepth patterns fuel node parentId depth := by
  intro fuel
  induction fuel with
  | zero =>
    intro node parentId depth h
    rw [scanDirectoryMermaid, scanDirectoryMermaidF]
    have : (depth : Int) > maxDepth := by omega
    simp [this]
  | succ fuel ih =>
    intro node parentId depth h
    rw [scanDirectoryMermaid, scanDirectoryMermaidF]
    by_cases hd : (depth : Int) > maxDepth
    · simp [hd]
    · simp only [hd, if_false]
      congr 1
      refine attachMapEq _ _ _ ?_
      intro x
      by_cases hq : x.1.isDirectory
      · simp only [hq, if_true]
        rw [ih x.1 _ (depth + 1) (by omega)]
      · simp [hq]

/-- The text assembled by `runFileStructureTool` on a successful walk: the
root header line (resolved base name plus a slash) followed by the scanned
lines, joined with newlines.  Path resolution and the actual file write are
outside the model; `rootName` is the already-resolved base name. -/
def treeOutput (rootName : String) (maxDepth : Int) (patterns : List String)
    (t : FSEntry) : String :=
  String.intercalate "\n" ((rootName ++ "/") :: scanDirectory maxDepth patterns t "" true 0)

example :
    (scanDirectoryMermaid 3 []
        (.dir "root" [.dir "a.b" [.file "a.txt"], .dir "a-b" [.file "a.txt"]])
        "root" 0).count "    root_a_b_a_txt[a.txt]" = 2 := by
  rw [scanDirectoryMermaid_eq_fuel 3 [] 5 _ "root" 0 (by norm_num)]
  decide

/-- Filesystem tree for the error model: a directory carries the result of
listing it, either its children or the message of the `readdir` failure. -/
inductive FST where
  | file : String → FST
  | dir : String → Except String (List FST) → FST

/-- Base name in the error model. -/
def FST.name : FST → String
  | .file n => n
  | .dir n _ => n

/-- Kind test in the error model. -/
def FST.isDirectory : FST → Bool
  | .file _ => false
  | .dir _ _ => true

/-- Result of `fs.readdir` in the error model: files never get listed by the
scanner, a directory yields its children or throws its recorded error. -/
def childrenE : FST → Except String (List FST)
  | .file _ => .ok []
  | .dir _ r => r

/-- The comparator of the scanners, on the error-model tree. -/
def entryCmpE (a b : FST) : Int :=
  if a.isDirectory == b.isDirectory then localeCompare a.name b.name
  else if a.isDirectory then -1 else 1

/-- Stable insertion on the error-model tree. -/
def insertEntryE (x : FST) : List FST → List FST
  | [] => [x]
  | y :: ys => if entryCmpE x y ≤ 0 then x :: y :: ys else y :: insertEntryE x ys

/-- Stable insertion sort on the error-model tree. -/
def sortEntriesE : List FST → List FST
  | [] => []
  | x :: xs => insertEntryE x (sortEntriesE xs)

/-- Sorted-then-filtered child list on the error-model tree. -/
def preparedChildrenE (patterns : List String) (cs : List FST) : List FST :=
  (sortEntriesE cs).filter (fun e => !(isExcluded patterns e.name))

/-- The `isLastEntry` pairing on the error-model tree. -/
def withLastFlagsE : List FST → List (FST × Bool)
  | [] => []
  | [e] => [(e, true)]
  | e :: e' :: es => (e, false) :: withLastFlagsE (e' :: es)

/-- Sequence the per-child line blocks left to right, aborting at the first
failure, as the sequential `await` in the source loop does. -/
def exceptFlatten : List (Except String (List String)) → Except String (List String)
  | [] => .ok []
  | r :: rs => do
    let a ← r
    let b ← exceptFlatten rs
    .ok (a ++ b)

theorem sizeOfE_lt_of_mem_childrenE {e node : FST} {cs : List FST}
    (hc : childrenE node = .ok cs) (h : e ∈ cs) : sizeOf e < sizeOf node := by
  cases node with
  | file n => simp only [childrenE, Except.ok.injEq] at hc; subst hc; simp at h
  | dir n r =>
    simp only [childrenE] at hc
    subst hc
    have := List.sizeOf_lt_of_mem h
    simp only [FST.dir.sizeOf_spec, Except.ok.sizeOf_spec]
    omega

theorem mem_of_mem_insertEntryE {x y : FST} {l : List FST}
    (h : y ∈ insertEntryE x l) : y = x ∨ y ∈ l := by
  induction l with
  | nil => simpa [insertEntryE] using h
  | cons z zs ih =>
    simp only [insertEntryE] at h
    split at h
    · simpa using h
    · rcases List.mem_cons.mp h with h | h
      · exact Or.inr (by simp [h])
      · rcases ih h with h | h
        · exact Or.inl h
        · exact Or.inr (List.mem_cons_of_mem _ h)

theorem mem_of_mem_sortEntriesE {y : FST} {l : List FST}
    (h : y ∈ sortEntriesE l) : y ∈ l := by
  induction l with
  | nil => simp [sortEntriesE] at h
  | cons x xs ih =>
    simp only [sortEntriesE] at h
    rcases mem_of_mem_insertEntryE h with h | h
    · simp [h]
    · exact List.mem_cons_of_mem _ (ih h)

theorem mem_of_mem_withLastFlagsE {q : FST × Bool} {l : List FST}
    (h : q ∈ withLastFlagsE l) : q.1 ∈ l := by
  induction l with
  | nil => simp [withLastFlagsE] at h
  | cons e es ih =>
    cases es with
    | nil => simp only [withLastFlagsE, List.mem_singleton] at h; simp [h]
    | cons e' es' =>
      simp only [withLastFlagsE] at h
      rcases List.mem_cons.mp h with h | h
      · simp [h]
      · exact List.mem_cons_of_mem _ (ih h)

theorem sizeOfE_lt_of_mem_scanStepE {q : FST × Bool} {p : List String} {node : FST}
    {cs : List FST} (hc : childrenE node = .ok cs)
    (h : q ∈ withLastFlagsE (preparedChildrenE p cs)) : sizeOf q.1 < sizeOf node :=
  sizeOfE_lt_of_mem_childrenE hc
    (mem_of_mem_sortEntriesE (List.mem_of_mem_filter (mem_of_mem_withLastFlagsE h)))

/-- Model of `scanDirectory` when directory listings can fail: the thrown
`readdir` error propagates out of the whole scan, children are otherwise
processed exactly as in `scanDirectory`, sequentially, aborting at the first
failing subtree. -/
def scanDirectoryE (maxDepth : Int) (patterns : List String) (node : FST)
    (pfx : String) (isLast : Bool) (depth : Nat) : Except String (List String) :=
  if (depth : Int) > maxDepth then .ok []
  else
    match hc : childrenE node with
    | .error e => .error e
    | .ok cs =>
      exceptFlatten
        ((withLastFlagsE (preparedChildrenE patterns cs)).attach.map
          (fun x =>
            if x.1.1.isDirectory then
              (scanDirectoryE maxDepth patterns x.1.1
                  (pfx ++ (if isLast then "    " else "│   ")) x.1.2 (depth + 1)).map
                (fun sub =>
                  (pfx ++ (if x.1.2 then "└── " else "├── ") ++ x.1.1.name ++ "/") :: sub)
            else
              .ok [pfx ++ (if x.1.2 then "└── " else "├── ") ++ x.1.1.name]))
termination_by sizeOf node
decreasing_by exact sizeOfE_lt_of_mem_scanStepE hc x.2

/-- Model of `runFileStructureTool` with the output file made explicit: the
pair is the returned message and the contents of the output file after the
call, where `fileBefore` is its contents before the call (`none` = absent).
The source writes the joined tree only after the whole scan succeeded; a
thrown error reaches the catch block, which returns the error text without
any write. -/
def runFileStructureToolE (rootName : String) (maxDepth : Int)
    (patterns : List String) (t : FST) (fileBefore : Option String) :
    String × Option String :=
  match scanDirectoryE maxDepth patterns t "" true 0 with
  | .error e => ("Error: " ++ e, fileBefore)
  | .ok lines =>
    ("Tree structure saved to the output path",
      some (String.intercalate "\n" ((rootName ++ "/") :: lines)))

mutual
/-- The tree with every entry whose name matches an exclusion pattern
removed, together with its whole subtree; this is the exclusion semantics
stated by the specification. -/
def pruneEntry (patterns : List String) : FSEntry → FSEntry
  | .file n => .file n
  | .dir n cs => .dir n (pruneList patterns cs)
def pruneList (patterns : List String) : List FSEntry → List FSEntry
  | [] => []
  | e :: es =>
    if isExcluded patterns e.name then pruneList patterns es
    else pruneEntry patterns e :: pruneList patterns es
end

mutual
/-- The tree truncated to the scanner depth budget: children of a node
reached with depth counter `d` exist only when `d ≤ maxDepth`, matching the
guard of the scanners. -/
def truncEntry (maxDepth : Int) (d : Nat) : FSEntry → FSEntry
  | .file n => .file n
  | .dir n cs =>
    .dir n (if (d : Int) > maxDepth then [] else truncList maxDepth (d + 1) cs)
def truncList (maxDepth : Int) (d : Nat) : List FSEntry → List FSEntry
  | [] => []
  | e :: es => truncEntry maxDepth d e :: truncList maxDepth d es
end

mutual
/-- Name chains of all proper descendants of a node, in traversal-source
order: `[n₁, ..., nₖ]` stands for the entry reached from the node through
children named `n₁, ..., nₖ`. -/
def entryPaths : FSEntry → List (List String)
  | .file _ => []
  | .dir _ cs => pathsList cs
def pathsList : List FSEntry → List (List String)
  | [] => []
  | e :: es =>
    ([e.name] :: (entryPaths e).map (fun q => e.name :: q)) ++ pathsList es
end

/-- Whether the names in one sibling list are pairwise distinct. -/
def distinctNames : List FSEntry → Bool
  | [] => true
  | e :: es => !(es.any (fun f => f.name == e.name)) && distinctNames es

mutual
/-- Whether every sibling list anywhere in the tree has pairwise distinct
names, as real directory listings do. -/
def deepNodup : FSEntry → Bool
  | .file _ => true
  | .dir _ cs => distinctNames cs && deepNodupList cs
def deepNodupList : List FSEntry → Bool
  | [] => true
  | e :: es => deepNodup e && deepNodupList es
end

mutual
/-- Simultaneous induction over a tree and a child list. -/
def fsInd (P : FSEntry → Prop) (Q : List FSEntry → Prop)
    (hfile : ∀ n, P (FSEntry.file n))
    (hdir : ∀ n cs, Q cs → P (FSEntry.dir n cs))
    (hnil : Q [])
    (hcons : ∀ e es, P e → Q es → Q (e :: es)) : ∀ t, P t
  | .file n => hfile n
  | .dir n cs => hdir n cs (fsIndList P Q hfile hdir hnil hcons cs)
def fsIndList (P : FSEntry → Prop) (Q : List FSEntry → Prop)
    (hfile : ∀ n, P (FSEntry.file n))
    (hdir : ∀ n cs, Q cs → P (FSEntry.dir n cs))
    (hnil : Q [])
    (hcons : ∀ e es, P e → Q es → Q (e :: es)) : ∀ cs, Q cs
  | [] => hnil
  | e :: es =>
    hcons e es (fsInd P Q hfile hdir hnil hcons e)
      (fsIndList P Q hfile hdir hnil hcons es)
end

theorem pruneEntry_name (p : List String) (e : FSEntry) :
    (pruneEntry p e).name = e.name := by
  cases e <;> simp [pruneEntry, FSEntry.name]

theorem pruneEntry_isDirectory (p : List String) (e : FSEntry) :
    (pruneEntry p e).isDirectory = e.isDirectory := by
  cases e <;> simp [pruneEntry, FSEntry.isDirectory]

theorem truncEntry_name (m : Int) (d : Nat) (e : FSEntry) :
    (truncEntry m d e).name = e.name := by
  cases e <;> simp [truncEntry, FSEntry.name]

theorem truncEntry_isDirectory (m : Int) (d : Nat) (e : FSEntry) :
    (truncEntry m d e).isDirectory = e.isDirectory := by
  cases e <;> simp [truncEntry, FSEntry.isDirectory]

theorem pruneList_eq (p : List String) (cs : List FSEntry) :
    pruneList p cs =
      (cs.filter (fun e => !(isExcluded p e.name))).map (pruneEntry p) := by
  induction cs with
  | nil => simp [pruneList]
  | cons e es ih =>
    rw [pruneList]
    by_cases he : isExcluded p e.name <;> simp [he, List.filter_cons, ih]

theorem truncList_eq (m : Int) (d : Nat) (cs : List FSEntry) :
    truncList m d cs = cs.map (truncEntry m d) := by
  induction cs with
  | nil => simp [truncList]
  | cons e es ih => rw [truncList]; simp [ih]

theorem charCmp_eq_lt {a b : Char} : charCmp a b = .lt ↔ a < b := by
  by_cases h1 : a < b
  · simp [charCmp, h1]
  · by_cases h2 : b < a <;> simp [charCmp, h1, h2]

theorem charCmp_eq_gt {a b : Char} : charCmp a b = .gt ↔ b < a := by
  by_cases h1 : a < b
  · simp [charCmp, h1, lt_asymm h1]
  · by_cases h2 : b < a <;> simp [charCmp, h1, h2]

theorem charCmp_eq_eq {a b : Char} : charCmp a b = .eq ↔ a = b := by
  by_cases h1 : a < b
  · simp [charCmp, h1, ne_of_lt h1]
  · by_cases h2 : b < a
    · simp [charCmp, h1, h2, (ne_of_lt h2).symm]
    · simp [charCmp, h1, h2, le_antisymm (not_lt.mp h2) (not_lt.mp h1)]

theorem cmpCharList_eq_eq : ∀ a b : List Char, cmpCharList a b = .eq ↔ a = b := by
  intro a
  induction a with
  | nil => intro b; cases b <;> simp [cmpCharList]
  | cons x xs ih =>
    intro b
    cases b with
    | nil => simp [cmpCharList]
    | cons y ys =>
      cases hxy : charCmp x y
      · simp only [cmpCharList, hxy]
        simp [ne_of_lt (charCmp_eq_lt.mp hxy)]
      · have h := charCmp_eq_eq.mp hxy
        subst h
        simp only [cmpCharList, hxy]
        simp [ih]
      · simp only [cmpCharList, hxy]
        simp [(ne_of_lt (charCmp_eq_gt.mp hxy)).symm]

theorem charCmp_swap (a b : Char) : charCmp b a = (charCmp a b).swap := by
  by_cases h1 : a < b
  · simp [charCmp, h1, lt_asymm h1, Ordering.swap]
  · by_cases h2 : b < a <;> simp [charCmp, h1, h2, Ordering.swap]

theorem cmpCharList_swap : ∀ a b : List Char, cmpCharList b a = (cmpCharList a b).swap := by
  intro a
  induction a with
  | nil => intro b; cases b <;> simp [cmpCharList, Ordering.swap]
  | cons x xs ih =>
    intro b
    cases b with
    | nil => simp [cmpCharList, Ordering.swap]
    | cons y ys =>
      rw [cmpCharList, cmpCharList, charCmp_swap]
      cases hxy : charCmp x y <;> simp [Ordering.swap, ih]

theorem cmpCharList_nil_left (c : List Char) : cmpCharList [] c ≠ .gt := by
  cases c <;> simp [cmpCharList]

theorem cmpCharList_le_trans :
    ∀ a b c : List Char, cmpCharList a b ≠ .gt → cmpCharList b c ≠ .gt →
      cmpCharList a c ≠ .gt := by
  intro a
  induction a with
  | nil => intro b c _ _; exact cmpCharList_nil_left c
  | cons x xs ih =>
    intro b c h1 h2
    cases b with
    | nil => simp [cmpCharList] at h1
    | cons y ys =>
      cases c with
      | nil => simp [cmpCharList] at h2
      | cons z zs =>
        cases hxy : charCmp x y <;> rw [cmpCharList, hxy] at h1
        · cases hyz : charCmp y z <;> rw [cmpCharList, hyz] at h2
          · have : x < z := lt_trans (charCmp_eq_lt.mp hxy) (charCmp_eq_lt.mp hyz)
            rw [cmpCharList, charCmp_eq_lt.mpr this]
            simp
          · have : x < z := (charCmp_eq_eq.mp hyz) ▸ charCmp_eq_lt.mp hxy
            rw [cmpCharList, charCmp_eq_lt.mpr this]
            simp
          · exact absurd rfl h2
        · cases hyz : charCmp y z <;> rw [cmpCharList, hyz] at h2
          · have : x < z := (charCmp_eq_eq.mp hxy) ▸ charCmp_eq_lt.mp hyz
            rw [cmpCharList, charCmp_eq_lt.mpr this]
            simp
          · have hxz : x = z := (charCmp_eq_eq.mp hxy).trans (charCmp_eq_eq.mp hyz)
            rw [cmpCharList, charCmp_eq_eq.mpr hxz]
            exact ih ys zs h1 h2
          · exact absurd rfl h2
        · exact absurd rfl h1

theorem stringDataEq {a b : String} (h : a.data = b.data) : a = b := by
  cases a
  cases b
  exact congrArg String.mk h

theorem localeCompare_nonpos {a b : String} :
    localeCompare a b ≤ 0 ↔ cmpCharList a.data b.data ≠ .gt := by
  unfold localeCompare
  cases cmpCharList a.data b.data <;> simp

theorem localeCompare_neg {a b : String} :
    localeCompare a b < 0 ↔ cmpCharList a.data b.data = .lt := by
  unfold localeCompare
  cases cmpCharList a.data b.data <;> simp

theorem localeCompare_eq_zero {a b : String} : localeCompare a b = 0 ↔ a = b := by
  unfold localeCompare
  cases h : cmpCharList a.data b.data <;> simp
  · intro he
    subst he
    rw [(cmpCharList_eq_eq _ _).mpr rfl] at h
    cases h
  · exact stringDataEq ((cmpCharList_eq_eq _ _).mp h)
  · intro he
    subst he
    rw [(cmpCharList_eq_eq _ _).mpr rfl] at h
    cases h

theorem localeCompare_swap (a b : String) : localeCompare b a = -localeCompare a b := by
  unfold localeCompare
  rw [cmpCharList_swap]
  cases cmpCharList a.data b.data <;> simp [Ordering.swap]

theorem localeCompare_le_trans {a b c : String}
    (h1 : localeCompare a b ≤ 0) (h2 : localeCompare b c ≤ 0) :
    localeCompare a c ≤ 0 :=
  localeCompare_nonpos.mpr
    (cmpCharList_le_trans _ _ _ (localeCompare_nonpos.mp h1) (localeCompare_nonpos.mp h2))

theorem entryCmp_swap (a b : FSEntry) : entryCmp b a = -entryCmp a b := by
  cases ha : a.isDirectory <;> cases hb : b.isDirectory <;>
    simp [entryCmp, ha, hb] <;> exact localeCompare_swap _ _

theorem entryCmp_eq_zero {a b : FSEntry} :
    entryCmp a b = 0 ↔ a.isDirectory = b.isDirectory ∧ a.name = b.name := by
  cases ha : a.isDirectory <;> cases hb : b.isDirectory <;>
    simp [entryCmp, ha, hb, localeCompare_eq_zero]

theorem entryCmp_le_trans {a b c : FSEntry}
    (h1 : entryCmp a b ≤ 0) (h2 : entryCmp b c ≤ 0) : entryCmp a c ≤ 0 := by
  cases ha : a.isDirectory <;> cases hb : b.isDirectory <;> cases hc : c.isDirectory <;>
    simp [entryCmp, ha, hb, hc] at h1 h2 ⊢ <;>
    exact localeCompare_le_trans h1 h2

theorem entryCmp_congr_left {a a' : FSEntry} (x : FSEntry)
    (hd : a'.isDirectory = a.isDirectory) (hn : a'.name = a.name) :
    entryCmp a' x = entryCmp a x := by
  simp [entryCmp, hd, hn]

theorem entryCmp_congr_right {a a' : FSEntry} (x : FSEntry)
    (hd : a'.isDirectory = a.isDirectory) (hn : a'.name = a.name) :
    entryCmp x a' = entryCmp x a := by
  simp [entryCmp, hd, hn]

theorem entryCmp_lt_of_lt_of_le {a b c : FSEntry}
    (h1 : entryCmp a b < 0) (h2 : entryCmp b c ≤ 0) : entryCmp a c < 0 := by
  have hle := entryCmp_le_trans (le_of_lt h1) h2
  rcases lt_or_eq_of_le hle with h | h
  · exact h
  · exfalso
    obtain ⟨hd, hn⟩ := entryCmp_eq_zero.mp h
    have heq : entryCmp a b = entryCmp c b :=
      (entryCmp_congr_left b hd.symm hn.symm).symm
    have hsw := entryCmp_swap b c
    have hcb : entryCmp c b = -entryCmp b c := by
      have := entryCmp_swap c b
      omega
    omega

theorem entryCmp_lt_of_le_of_lt {a b c : FSEntry}
    (h1 : entryCmp a b ≤ 0) (h2 : entryCmp b c < 0) : entryCmp a c < 0 := by
  have hle := entryCmp_le_trans h1 (le_of_lt h2)
  rcases lt_or_eq_of_le hle with h | h
  · exact h
  · exfalso
    obtain ⟨hd, hn⟩ := entryCmp_eq_zero.mp h
    have heq : entryCmp b c = entryCmp b a :=
      entryCmp_congr_right b hd.symm hn.symm
    have hsw := entryCmp_swap a b
    omega

theorem entryCmp_lt_of_le_of_ne {a b : FSEntry}
    (h : entryCmp a b ≤ 0) (hn : a.name ≠ b.name) : entryCmp a b < 0 := by
  rcases lt_or_eq_of_le h with h' | h'
  · exact h'
  · exact absurd (entryCmp_eq_zero.mp h').2 hn

theorem insertEntry_perm (x : FSEntry) (l : List FSEntry) :
    (insertEntry x l).Perm (x :: l) := by
  induction l with
  | nil => simp [insertEntry]
  | cons y ys ih =>
    rw [insertEntry]
    split
    · exact List.Perm.refl _
    · exact (ih.cons y).trans (List.Perm.swap x y ys)

theorem sortEntries_perm (l : List FSEntry) : (sortEntries l).Perm l := by
  induction l with
  | nil => simp [sortEntries]
  | cons x xs ih => exact (insertEntry_perm x (sortEntries xs)).trans (ih.cons x)

theorem pairwise_insertEntry {x : FSEntry} {l : List FSEntry}
    (h : l.Pairwise (fun a b => entryCmp a b ≤ 0)) :
    (insertEntry x l).Pairwise (fun a b => entryCmp a b ≤ 0) := by
  induction l with
  | nil => simp [insertEntry]
  | cons y ys ih =>
    rw [insertEntry]
    rcases List.pairwise_cons.mp h with ⟨hy, hys⟩
    split
    · rename_i hxy
      refine List.pairwise_cons.mpr ⟨?_, h⟩
      intro z hz
      rcases List.mem_cons.mp hz with hz | hz
      · exact hz ▸ hxy
      · exact entryCmp_le_trans hxy (hy z hz)
    · rename_i hxy
      push_neg at hxy
      refine List.pairwise_cons.mpr ⟨?_, ih hys⟩
      intro z hz
      rcases mem_of_mem_insertEntry hz with hz | hz
      · subst hz
        have := entryCmp_swap y z
        omega
      · exact hy z hz

theorem pairwise_sortEntries (l : List FSEntry) :
    (sortEntries l).Pairwise (fun a b => entryCmp a b ≤ 0) := by
  induction l with
  | nil => simp [sortEntries]
  | cons x xs ih => exact pairwise_insertEntry ih

theorem insertEntry_of_forall_le {x : FSEntry} {l : List FSEntry}
    (h : ∀ z ∈ l, entryCmp x z ≤ 0) : insertEntry x l = x :: l := by
  cases l with
  | nil => rfl
  | cons y ys => rw [insertEntry, if_pos (h y (by simp))]

theorem sortEntries_of_pairwise {l : List FSEntry}
    (h : l.Pairwise (fun a b => entryCmp a b ≤ 0)) : sortEntries l = l := by
  induction l with
  | nil => rfl
  | cons x xs ih =>
    rcases List.pairwise_cons.mp h with ⟨hx, hxs⟩
    rw [sortEntries, ih hxs, insertEntry_of_forall_le hx]

theorem filter_insertEntry_neg {f : FSEntry → Bool} {x : FSEntry} (l : List FSEntry)
    (hx : f x = false) : (insertEntry x l).filter f = l.filter f := by
  induction l with
  | nil => simp [insertEntry, hx]
  | cons y ys ih =>
    rw [insertEntry]
    split
    · simp [List.filter_cons, hx]
    · simp only [List.filter_cons, ih]

theorem filter_insertEntry_pos {f : FSEntry → Bool} {x : FSEntry} {l : List FSEntry}
    (hl : l.Pairwise (fun a b => entryCmp a b ≤ 0)) (hx : f x = true) :
    (insertEntry x l).filter f = insertEntry x (l.filter f) := by
  induction l with
  | nil => simp [insertEntry, hx]
  | cons y ys ih =>
    rcases List.pairwise_cons.mp hl with ⟨hy, hys⟩
    rw [insertEntry]
    split
    · rename_i hxy
      cases hfy : f y
      · have hrest : ∀ z ∈ ys.filter f, entryCmp x z ≤ 0 :=
          fun z hz => entryCmp_le_trans hxy (hy z (List.mem_of_mem_filter hz))
        simp only [List.filter_cons, hx, hfy, if_true, if_false, cond_true, cond_false]
        simp [insertEntry_of_forall_le hrest]
      · simp only [List.filter_cons, hx, hfy, if_true]
        simp [insertEntry, hxy]
    · rename_i hxy
      cases hfy : f y
      · simp only [List.filter_cons, hfy, if_false, cond_false]
        exact ih hys
      · simp only [List.filter_cons, hfy, if_true]
        rw [ih hys, insertEntry, if_neg hxy]

theorem sortEntries_filter_comm (f : FSEntry → Bool) (l : List FSEntry) :
    (sortEntries l).filter f = sortEntries (l.filter f) := by
  induction l with
  | nil => rfl
  | cons x xs ih =>
    rw [sortEntries]
    cases hx : f x
    · rw [filter_insertEntry_neg _ hx, ih, List.filter_cons_of_neg (by simp [hx])]
    · rw [filter_insertEntry_pos (pairwise_sortEntries xs) hx, ih,
        List.filter_cons_of_pos (by simp [hx]), sortEntries]

theorem insertEntry_map {g : FSEntry → FSEntry}
    (hg : ∀ e, (g e).isDirectory = e.isDirectory ∧ (g e).name = e.name)
    (x : FSEntry) (l : List FSEntry) :
    insertEntry (g x) (l.map g) = (insertEntry x l).map g := by
  induction l with
  | nil => simp [insertEntry]
  | cons y ys ih =>
    have hcmp : entryCmp (g x) (g y) = entryCmp x y := by
      rw [entryCmp_congr_left (g y) (hg x).1 (hg x).2,
        entryCmp_congr_right x (hg y).1 (hg y).2]
    simp only [List.map_cons, insertEntry, hcmp]
    split <;> simp [ih]

theorem sortEntries_map {g : FSEntry → FSEntry}
    (hg : ∀ e, (g e).isDirectory = e.isDirectory ∧ (g e).name = e.name)
    (l : List FSEntry) : sortEntries (l.map g) = (sortEntries l).map g := by
  induction l with
  | nil => rfl
  | cons x xs ih => rw [List.map_cons, sortEntries, ih, insertEntry_map hg, sortEntries]

theorem pairwise_lt_sortEntries {l : List FSEntry}
    (hn : (l.map FSEntry.name).Nodup) :
    (sortEntries l).Pairwise (fun a b => entryCmp a b < 0) := by
  have hle := pairwise_sortEntries l
  have hnod : ((sortEntries l).map FSEntry.name).Nodup :=
    (((sortEntries_perm l).map FSEntry.name).symm).nodup hn
  have hname : (sortEntries l).Pairwise (fun a b => a.name ≠ b.name) :=
    List.pairwise_map.mp hnod
  exact (hle.and hname).imp (fun h => entryCmp_lt_of_le_of_ne h.1 h.2)

theorem sortEntries_eq_of_perm {l₁ l₂ : List FSEntry} (hp : l₁.Perm l₂)
    (hn : (l₁.map FSEntry.name).Nodup) : sortEntries l₁ = sortEntries l₂ := by
  haveI : IsAntisymm FSEntry (fun a b => entryCmp a b < 0) := by
    constructor
    intro a b h1 h2
    exfalso
    have := entryCmp_swap a b
    omega
  have hperm : (sortEntries l₁).Perm (sortEntries l₂) :=
    (sortEntries_perm l₁).trans (hp.trans (sortEntries_perm l₂).symm)
  have hn₂ : (l₂.map FSEntry.name).Nodup := ((hp.map FSEntry.name)).nodup hn
  exact List.eq_of_perm_of_sorted hperm (pairwise_lt_sortEntries hn)
    (pairwise_lt_sortEntries hn₂)

theorem filterMapComm {α β : Type} (f : α → β) (p : β → Bool) (l : List α) :
    (l.map f).filter p = (l.filter (fun a => p (f a))).map f := by
  induction l with
  | nil => rfl
  | cons a t ih =>
    simp only [List.map_cons, List.filter_cons]
    split <;> simp_all

theorem preparedChildren_map {g : FSEntry → FSEntry}
    (hg : ∀ e, (g e).isDirectory = e.isDirectory ∧ (g e).name = e.name)
    (p : List String) (cs : List FSEntry) :
    preparedChildren p (cs.map g) = (preparedChildren p cs).map g := by
  unfold preparedChildren
  rw [sortEntries_map hg, filterMapComm]
  congr 1
  refine List.filter_congr ?_
  intro e _
  rw [(hg e).2]

theorem preparedChildren_eq_of_perm {p : List String} {cs ds : List FSEntry}
    (hp : cs.Perm ds) (hn : (cs.map FSEntry.name).Nodup) :
    preparedChildren p cs = preparedChildren p ds := by
  unfold preparedChildren
  rw [sortEntries_eq_of_perm hp hn]

theorem preparedChildren_nil_patterns (cs : List FSEntry) :
    preparedChildren [] cs = sortEntries cs := by
  unfold preparedChildren
  simp [isExcluded]

theorem withLastFlags_map (g : FSEntry → FSEntry) (l : List FSEntry) :
    withLastFlags (l.map g) = (withLastFlags l).map (fun q => (g q.1, q.2)) := by
  induction l with
  | nil => rfl
  | cons e es ih =>
    cases es with
    | nil => rfl
    | cons e' es' => simp only [List.map_cons, withLastFlags] at ih ⊢; simp [ih]

theorem pruneEntry_preserves (p : List String) :
    ∀ e, ((pruneEntry p e).isDirectory = e.isDirectory ∧
      (pruneEntry p e).name = e.name) :=
  fun e => ⟨pruneEntry_isDirectory p e, pruneEntry_name p e⟩

theorem truncEntry_preserves (m : Int) (d : Nat) :
    ∀ e, ((truncEntry m d e).isDirectory = e.isDirectory ∧
      (truncEntry m d e).name = e.name) :=
  fun e => ⟨truncEntry_isDirectory m d e, truncEntry_name m d e⟩

theorem childEntries_pruneEntry (p : List String) (node : FSEntry) :
    childEntries (pruneEntry p node) = pruneList p (childEntries node) := by
  cases node <;> simp [pruneEntry, childEntries, pruneList]

theorem scanF_prune (maxDepth : Int) (patterns : List String) :
    ∀ (fuel : Nat) (node : FSEntry) (pfx : String) (isLast : Bool) (depth : Nat),
      scanDirectoryF maxDepth patterns fuel node pfx isLast depth =
        scanDirectoryF maxDepth [] fuel (pruneEntry patterns node) pfx isLast depth := by
  intro fuel
  induction fuel with
  | zero => intro node pfx isLast depth; rfl
  | succ fuel ih =>
    intro node pfx isLast depth
    rw [scanDirectoryF, scanDirectoryF]
    by_cases hd : (depth : Int) > maxDepth
    · simp [hd]
    · simp only [hd, if_false]
      congr 1
      rw [childEntries_pruneEntry, pruneList_eq, preparedChildren_nil_patterns,
        sortEntries_map (pruneEntry_preserves patterns), ← sortEntries_filter_comm]
      have hpc : (sortEntries (childEntries node)).filter
          (fun e => !(isExcluded patterns e.name)) =
          preparedChildren patterns (childEntries node) := rfl
      rw [hpc, withLastFlags_map]
      rw [List.map_map]
      refine List.map_congr_left ?_
      intro q _
      simp only [Function.comp]
      rw [pruneEntry_isDirectory, pruneEntry_name]
      by_cases hq : q.1.isDirectory
      · simp only [hq, if_true]
        rw [ih q.1]
      · simp [hq]

theorem childEntries_truncEntry (m : Int) (d : Nat) (node : FSEntry) (hd : ¬((d : Int) > m)) :
    childEntries (truncEntry m d node) = (childEntries node).map (truncEntry m (d + 1)) := by
  cases node with
  | file n => simp [truncEntry, childEntries]
  | dir n cs => simp [truncEntry, childEntries, hd, truncList_eq]

theorem scanF_trunc (maxDepth : Int) (patterns : List String) :
    ∀ (fuel : Nat) (node : FSEntry) (pfx : String) (isLast : Bool) (depth : Nat),
      scanDirectoryF maxDepth patterns fuel node pfx isLast depth =
        scanDirectoryF maxDepth patterns fuel (truncEntry maxDepth depth node)
          pfx isLast depth := by
  intro fuel
  induction fuel with
  | zero => intro node pfx isLast depth; rfl
  | succ fuel ih =>
    intro node pfx isLast depth
    rw [scanDirectoryF, scanDirectoryF]
    by_cases hd : (depth : Int) > maxDepth
    · simp [hd]
    · simp only [hd, if_false]
      congr 1
      rw [childEntries_truncEntry maxDepth depth node hd,
        preparedChildren_map (truncEntry_preserves maxDepth (depth + 1)),
        withLastFlags_map, List.map_map]
      refine List.map_congr_left ?_
      intro q _
      simp only [Function.comp]
      rw [truncEntry_isDirectory, truncEntry_name]
      by_cases hq : q.1.isDirectory
      · simp only [hq, if_true]
        rw [ih q.1]
      · simp [hq]

theorem entryPaths_prune (p : List String) : ∀ t,
    entryPaths (pruneEntry p t) =
      (entryPaths t).filter (fun q => q.all (fun nm => !(isExcluded p nm))) := by
  refine fsInd
    (fun t => entryPaths (pruneEntry p t) =
      (entryPaths t).filter (fun q => q.all (fun nm => !(isExcluded p nm))))
    (fun cs => pathsList (pruneList p cs) =
      (pathsList cs).filter (fun q => q.all (fun nm => !(isExcluded p nm))))
    ?_ ?_ ?_ ?_
  · intro n
    rfl
  · intro n cs hQ
    simpa [pruneEntry, entryPaths] using hQ
  · rfl
  · intro e es hP hQ
    rw [pruneList]
    by_cases he : isExcluded p e.name
    · simp only [he, if_true]
      rw [hQ, pathsList, List.cons_append, List.filter_cons]
      have h1 : (([e.name].all (fun nm => !(isExcluded p nm))) = true) = False := by
        simp [he]
      rw [List.filter_append]
      have h2 : ((entryPaths e).map (fun q => e.name :: q)).filter
          (fun q => q.all (fun nm => !(isExcluded p nm))) = [] := by
        rw [filterMapComm]
        have : (entryPaths e).filter
            (fun q => (e.name :: q).all (fun nm => !(isExcluded p nm))) = [] := by
          rw [List.filter_congr (fun q _ => by simp [he] :
            ∀ q ∈ entryPaths e, ((e.name :: q).all (fun nm => !(isExcluded p nm))) =
              false)]
          exact List.filter_false _
        rw [this]
        rfl
      simp [h1, h2, he]
    · rw [if_neg he]
      have hL : pathsList (pruneEntry p e :: pruneList p es) =
          ([(pruneEntry p e).name] :: (entryPaths (pruneEntry p e)).map
            (fun q => (pruneEntry p e).name :: q)) ++ pathsList (pruneList p es) := rfl
      have hR : pathsList (e :: es) =
          ([e.name] :: (entryPaths e).map (fun q => e.name :: q)) ++ pathsList es := rfl
      rw [hL, hR, pruneEntry_name, hP, hQ, List.filter_append, List.filter_cons]
      have h1 : ([e.name].all (fun nm => !(isExcluded p nm))) = true := by simp [he]
      have h2 : ((entryPaths e).map (fun q => e.name :: q)).filter
          (fun q => q.all (fun nm => !(isExcluded p nm))) =
          ((entryPaths e).filter
            (fun q => q.all (fun nm => !(isExcluded p nm)))).map
              (fun q => e.name :: q) := by
        rw [filterMapComm]
        congr 1
        refine List.filter_congr ?_
        intro q _
        simp [he]
      simp [h1, h2]

theorem entryPaths_trunc_bound (m : Int) : ∀ t, ∀ d : Nat,
    ((entryPaths (truncEntry m d t)).all
      (fun q => decide ((d : Int) + q.length ≤ m + 1))) = true := by
  refine fsInd
    (fun t => ∀ d : Nat, ((entryPaths (truncEntry m d t)).all
      (fun q => decide ((d : Int) + q.length ≤ m + 1))) = true)
    (fun cs => ∀ d : Nat, (d : Int) ≤ m →
      ((pathsList (truncList m (d + 1) cs)).all
        (fun q => decide ((d : Int) + q.length ≤ m + 1))) = true)
    ?_ ?_ ?_ ?_
  · intro n d
    rfl
  · intro n cs hQ d
    by_cases hdm : (d : Int) > m
    · simp [truncEntry, entryPaths, hdm, pathsList]
    · simp only [truncEntry, hdm, if_false, entryPaths]
      exact hQ d (by omega)
  · intro d _
    rfl
  · intro e es hP hQ d hd
    rw [truncList, pathsList, truncEntry_name]
    simp only [List.all_eq_true] at hP hQ ⊢
    intro q hq
    rcases List.mem_append.mp hq with hq | hq
    · rcases List.mem_cons.mp hq with hq | hq
      · subst hq
        simp only [decide_eq_true_eq, List.length_cons, List.length_nil]
        push_cast
        omega
      · obtain ⟨q', hq', rfl⟩ := List.mem_map.mp hq
        have := hP (d + 1) q' hq'
        simp only [decide_eq_true_eq] at this ⊢
        simp only [List.length_cons]
        push_cast at this ⊢
        omega
    · exact hQ d hd q hq

theorem pruneEntry_nil_patterns : ∀ t, pruneEntry [] t = t := by
  refine fsInd (fun t => pruneEntry [] t = t) (fun cs => pruneList [] cs = cs)
    ?_ ?_ ?_ ?_
  · intro n; rfl
  · intro n cs hQ; rw [pruneEntry, hQ]
  · rfl
  · intro e es hP hQ
    rw [pruneList, hP, hQ, if_neg]
    simp [isExcluded]

mutual
/-- Two trees list the same filesystem: same name and kind, and for
directories the two listings are permutations of each other with matching
subtrees.  `ds.Perm ds'` relates the second listing to a reordering that is
pointwise related to the first listing. -/
def treePermP : FSEntry → FSEntry → Prop
  | .file n₁, .file n₂ => n₁ = n₂
  | .dir n₁ cs, .dir n₂ ds => n₁ = n₂ ∧ childrenPermP cs ds
  | .file _, .dir _ _ => False
  | .dir _ _, .file _ => False
def childrenPermP : List FSEntry → List FSEntry → Prop
  | cs, ds => ∃ ds', ds.Perm ds' ∧ pointwiseP cs ds'
def pointwiseP : List FSEntry → List FSEntry → Prop
  | [], [] => True
  | a :: as, b :: bs => treePermP a b ∧ pointwiseP as bs
  | [], _ :: _ => False
  | _ :: _, [] => False
end

theorem pointwiseP_iff_forall₂ : ∀ cs ds, pointwiseP cs ds ↔ List.Forall₂ treePermP cs ds := by
  intro cs
  induction cs with
  | nil => intro ds; cases ds <;> simp [pointwiseP, List.forall₂_nil_left_iff]
  | cons a as ih =>
    intro ds
    cases ds with
    | nil => simp [pointwiseP]
    | cons b bs => simp [pointwiseP, List.forall₂_cons, ih]

theorem treePermP_name {a b : FSEntry} (h : treePermP a b) :
    a.name = b.name ∧ a.isDirectory = b.isDirectory := by
  cases a <;> cases b <;> simp_all [treePermP, FSEntry.name, FSEntry.isDirectory]

theorem treePermP_refl : ∀ t, treePermP t t := by
  refine fsInd (fun t => treePermP t t) (fun cs => pointwiseP cs cs) ?_ ?_ ?_ ?_
  · intro n; simp [treePermP]
  · intro n cs hQ
    simp only [treePermP, childrenPermP]
    exact ⟨by trivial, cs, List.Perm.refl cs, hQ⟩
  · simp [pointwiseP]
  · intro e es hP hQ
    simp only [pointwiseP]
    exact ⟨hP, hQ⟩

theorem names_eq_of_forall₂ :
    ∀ {l₁ l₂ : List FSEntry}, List.Forall₂ treePermP l₁ l₂ →
      l₁.map FSEntry.name = l₂.map FSEntry.name := by
  intro l₁ l₂ h
  induction h with
  | nil => rfl
  | cons hab _ ih => simp [ih, (treePermP_name hab).1]

theorem insertEntry_forall₂ {x y : FSEntry} :
    ∀ {l₁ l₂ : List FSEntry}, treePermP x y → List.Forall₂ treePermP l₁ l₂ →
      List.Forall₂ treePermP (insertEntry x l₁) (insertEntry y l₂) := by
  intro l₁ l₂ hxy h
  induction h with
  | nil => exact .cons hxy .nil
  | cons hab hl ih =>
    rename_i a b as bs
    have hcmp : entryCmp y b = entryCmp x a := by
      rw [entryCmp_congr_left b (treePermP_name hxy).2.symm (treePermP_name hxy).1.symm,
        entryCmp_congr_right x (treePermP_name hab).2.symm (treePermP_name hab).1.symm]
    rw [insertEntry, insertEntry, hcmp]
    by_cases hc : entryCmp x a ≤ 0
    · rw [if_pos hc, if_pos hc]
      exact .cons hxy (.cons hab hl)
    · rw [if_neg hc, if_neg hc]
      exact .cons hab ih

theorem sortEntries_forall₂ :
    ∀ {l₁ l₂ : List FSEntry}, List.Forall₂ treePermP l₁ l₂ →
      List.Forall₂ treePermP (sortEntries l₁) (sortEntries l₂) := by
  intro l₁ l₂ h
  induction h with
  | nil => exact .nil
  | cons hab _ ih => exact insertEntry_forall₂ hab ih

theorem filter_forall₂ {p : List String} :
    ∀ {l₁ l₂ : List FSEntry}, List.Forall₂ treePermP l₁ l₂ →
      List.Forall₂ treePermP (l₁.filter (fun e => !(isExcluded p e.name)))
        (l₂.filter (fun e => !(isExcluded p e.name))) := by
  intro l₁ l₂ h
  induction h with
  | nil => exact .nil
  | cons hab _ ih =>
    rename_i a b as bs
    rw [List.filter_cons, List.filter_cons, (treePermP_name hab).1]
    split
    · exact .cons hab ih
    · exact ih

theorem preparedChildren_forall₂ {p : List String} {l₁ l₂ : List FSEntry}
    (h : List.Forall₂ treePermP l₁ l₂) :
    List.Forall₂ treePermP (preparedChildren p l₁) (preparedChildren p l₂) :=
  filter_forall₂ (sortEntries_forall₂ h)

theorem withLastFlags_forall₂ {R : FSEntry → FSEntry → Prop} :
    ∀ {l₁ l₂ : List FSEntry}, List.Forall₂ R l₁ l₂ →
      List.Forall₂ (fun q₁ q₂ => R q₁.1 q₂.1 ∧ q₁.2 = q₂.2)
        (withLastFlags l₁) (withLastFlags l₂) := by
  intro l₁
  induction l₁ with
  | nil =>
    intro l₂ h
    cases h
    exact .nil
  | cons a as ih =>
    intro l₂ h
    rcases List.forall₂_cons_left_iff.mp h with ⟨b, bs, hab, hrest, rfl⟩
    cases as with
    | nil =>
      cases hrest
      exact .cons ⟨hab, rfl⟩ .nil
    | cons a' as' =>
      rcases List.forall₂_cons_left_iff.mp hrest with ⟨b', bs', hab', hrest', rfl⟩
      rw [withLastFlags, withLastFlags]
      exact .cons ⟨hab, rfl⟩ (ih hrest)

theorem map_eq_of_forall₂ {α β : Type} {S : α → α → Prop} {F G : α → β} :
    ∀ {l₁ l₂ : List α}, List.Forall₂ S l₁ l₂ → (∀ a b, S a b → F a = G b) →
      l₁.map F = l₂.map G := by
  intro l₁ l₂ h hp
  induction h with
  | nil => rfl
  | cons hab _ ih => simp [ih, hp _ _ hab]

theorem forall₂_and_mem {S : FSEntry → FSEntry → Prop} {T : FSEntry → Prop} :
    ∀ {l₁ l₂ : List FSEntry}, List.Forall₂ S l₁ l₂ → (∀ a ∈ l₁, T a) →
      List.Forall₂ (fun a b => S a b ∧ T a) l₁ l₂ := by
  intro l₁ l₂ h hT
  induction h with
  | nil => exact .nil
  | cons hab hl ih =>
    exact .cons ⟨hab, hT _ (by simp)⟩ (ih (fun a ha => hT a (by simp [ha])))

theorem forall₂_perm_right {R : FSEntry → FSEntry → Prop} {l₂ l₃ : List FSEntry}
    (hp : l₂.Perm l₃) :
    ∀ {l₁ : List FSEntry}, List.Forall₂ R l₁ l₂ →
      ∃ l₁', l₁.Perm l₁' ∧ List.Forall₂ R l₁' l₃ := by
  induction hp with
  | nil =>
    intro l₁ h
    rw [List.forall₂_nil_right_iff.mp h]
    exact ⟨[], List.Perm.refl _, .nil⟩
  | cons x _ ih =>
    intro l₁ h
    rcases List.forall₂_cons_right_iff.mp h with ⟨a, as, hab, hrest, rfl⟩
    rcases ih hrest with ⟨as', hp', hf'⟩
    exact ⟨a :: as', hp'.cons a, .cons hab hf'⟩
  | swap x y t =>
    intro l₁ h
    rcases List.forall₂_cons_right_iff.mp h with ⟨a, as, hay, hrest, rfl⟩
    rcases List.forall₂_cons_right_iff.mp hrest with ⟨b, bs, hbx, hrest', rfl⟩
    exact ⟨b :: a :: bs, List.Perm.swap b a bs, .cons hbx (.cons hay hrest')⟩
  | trans _ _ ih₁ ih₂ =>
    intro l₁ h
    rcases ih₁ h with ⟨x, hp₁, hf₁⟩
    rcases ih₂ hf₁ with ⟨y, hp₂, hf₂⟩
    exact ⟨y, hp₁.trans hp₂, hf₂⟩

theorem distinctNames_iff_nodup :
    ∀ cs : List FSEntry, distinctNames cs = true ↔ (cs.map FSEntry.name).Nodup := by
  intro cs
  induction cs with
  | nil => simp [distinctNames]
  | cons e es ih =>
    rw [distinctNames, Bool.and_eq_true, ih]
    simp only [List.map_cons, List.nodup_cons]
    constructor
    · rintro ⟨h1, h2⟩
      refine ⟨?_, h2⟩
      simp only [Bool.not_eq_true', List.any_eq_false] at h1
      intro hmem
      rcases List.mem_map.mp hmem with ⟨f, hf, hfe⟩
      have h3 := h1 f hf
      rw [hfe] at h3
      simp at h3
    · rintro ⟨h1, h2⟩
      refine ⟨?_, h2⟩
      simp only [Bool.not_eq_true', List.any_eq_false, beq_eq_false_iff_ne, ne_eq]
      intro f hf hfe
      exact h1 (List.mem_map.mpr ⟨f, hf, eq_of_beq hfe⟩)

theorem deepNodup_of_mem : ∀ {cs : List FSEntry} {e : FSEntry},
    deepNodupList cs = true → e ∈ cs → deepNodup e = true := by
  intro cs
  induction cs with
  | nil => intro e _ h; cases h
  | cons f fs ih =>
    intro e hall hmem
    rw [deepNodupList, Bool.and_eq_true] at hall
    rcases List.mem_cons.mp hmem with h | h
    · exact h ▸ hall.1
    · exact ih hall.2 h

theorem scanF_treePerm (maxDepth : Int) (patterns : List String) :
    ∀ (fuel : Nat) (t₁ t₂ : FSEntry) (pfx : String) (isLast : Bool) (depth : Nat),
      treePermP t₁ t₂ → deepNodup t₁ = true →
      scanDirectoryF maxDepth patterns fuel t₁ pfx isLast depth =
        scanDirectoryF maxDepth patterns fuel t₂ pfx isLast depth := by
  intro fuel
  induction fuel with
  | zero => intro t₁ t₂ pfx isLast depth _ _; rfl
  | succ fuel ih =>
    intro t₁ t₂ pfx isLast depth hperm hnd
    rw [scanDirectoryF, scanDirectoryF]
    by_cases hd : (depth : Int) > maxDepth
    · simp [hd]
    · simp only [hd, if_false]
      congr 1
      cases t₁ with
      | file n₁ =>
        cases t₂ with
        | file n₂ => rfl
        | dir n₂ ds => exact absurd hperm (by simp [treePermP])
      | dir n₁ cs =>
        cases t₂ with
        | file n₂ => exact absurd hperm (by simp [treePermP])
        | dir n₂ ds =>
          simp only [treePermP, childrenPermP] at hperm
          obtain ⟨-, ds', hdperm, hpw⟩ := hperm
          have hf : List.Forall₂ treePermP cs ds' := (pointwiseP_iff_forall₂ _ _).mp hpw
          rw [deepNodup, Bool.and_eq_true] at hnd
          obtain ⟨hdn, hdl⟩ := hnd
          have hncs : (cs.map FSEntry.name).Nodup := (distinctNames_iff_nodup cs).mp hdn
          have hnames : cs.map FSEntry.name = ds'.map FSEntry.name :=
            names_eq_of_forall₂ hf
          have hnds' : (ds'.map FSEntry.name).Nodup := hnames ▸ hncs
          have hnds : (ds.map FSEntry.name).Nodup :=
            ((hdperm.map FSEntry.name).symm).nodup hnds'
          have hpds : preparedChildren patterns ds = preparedChildren patterns ds' :=
            preparedChildren_eq_of_perm hdperm hnds
          simp only [childEntries]
          rw [hpds]
          have hfp : List.Forall₂ treePermP (preparedChildren patterns cs)
              (preparedChildren patterns ds') := preparedChildren_forall₂ hf
          have hfpd : List.Forall₂ (fun a b => treePermP a b ∧ deepNodup a = true)
              (preparedChildren patterns cs) (preparedChildren patterns ds') :=
            forall₂_and_mem hfp
              (fun a ha => deepNodup_of_mem hdl (mem_of_mem_prepared ha))
          have hwl := withLastFlags_forall₂ hfpd
          refine map_eq_of_forall₂ hwl ?_
          intro q₁ q₂ hq
          obtain ⟨⟨htp, hdn₁⟩, hflag⟩ := hq
          have hnm := treePermP_name htp
          simp only [← hflag, ← hnm.1, ← hnm.2]
          by_cases hq1 : q₁.1.isDirectory
          · simp only [hq1, if_true]
            rw [ih q₁.1 q₂.1 _ _ _ htp hdn₁]
          · simp [hq1]

/-- Fuel-indexed companion of `scanDirectoryE`, evaluable by kernel
reduction. -/
def scanDirectoryEF (maxDepth : Int) (patterns : List String) :
    Nat → FST → String → Bool → Nat → Except String (List String)
  | 0, _, _, _, _ => .ok []
  | fuel + 1, node, pfx, isLast, depth =>
    if (depth : Int) > maxDepth then .ok []
    else
      match childrenE node with
      | .error e => .error e
      | .ok cs =>
        exceptFlatten
          ((withLastFlagsE (preparedChildrenE patterns cs)).map
            (fun q =>
              if q.1.isDirectory then
                (scanDirectoryEF maxDepth patterns fuel q.1
                    (pfx ++ (if isLast then "    " else "│   ")) q.2 (depth + 1)).map
                  (fun sub =>
                    (pfx ++ (if q.2 then "└── " else "├── ") ++ q.1.name ++ "/") :: sub)
              else
                .ok [pfx ++ (if q.2 then "└── " else "├── ") ++ q.1.name]))

theorem scanDirectoryE_eq_fuel (maxDepth : Int) (patterns : List String) :
    ∀ (fuel : Nat) (node : FST) (pfx : String) (isLast : Bool) (depth : Nat),
      maxDepth - (depth : Int) < (fuel : Int) →
      scanDirectoryE maxDepth patterns node pfx isLast depth =
        scanDirectoryEF maxDepth patterns fuel node pfx isLast depth := by
  intro fuel
  induction fuel with
  | zero =>
    intro node pfx isLast depth h
    rw [scanDirectoryE, scanDirectoryEF]
    have : (depth : Int) > maxDepth := by omega
    simp [this]
  | succ fuel ih =>
    intro node pfx isLast depth h
    rw [scanDirectoryE, scanDirectoryEF]
    by_cases hd : (depth : Int) > maxDepth
    · simp [hd]
    · simp only [hd, if_false]
      cases hc : childrenE node with
      | error e => rfl
      | ok cs =>
        refine congrArg exceptFlatten (attachMapEq _ _ _ ?_)
        intro x
        by_cases hq : x.1.1.isDirectory
        · simp only [hq, if_true]
          rw [ih x.1.1 _ x.1.2 (depth + 1) (by omega)]
        · simp [hq]

theorem flatten_map_singleton {α β : Type} (l : List α) (f : α → β) :
    (l.map (fun x => [f x])).flatten = l.map f := by
  induction l with
  | nil => rfl
  | cons a t ih => simp [ih]

theorem strIncludes_empty (s : String) : strIncludes s "" = true := by
  rw [strIncludes]
  show containsSub [] s.data = true
  cases s.data <;> simp [containsSub, isPrefixOfL]

theorem isExcluded_of_empty_mem {p : List String} (h : "" ∈ p) (nm : String) :
    isExcluded p nm = true :=
  List.any_eq_true.mpr ⟨"", h, strIncludes_empty nm⟩

theorem preparedChildren_nil_of_empty_pattern {p : List String} (h : "" ∈ p)
    (cs : List FSEntry) : preparedChildren p cs = [] := by
  unfold preparedChildren
  have hall : ∀ e ∈ sortEntries cs, (!(isExcluded p e.name)) = false := by
    intro e _
    simp [isExcluded_of_empty_mem h]
  rw [List.filter_congr hall, List.filter_false]

theorem scanDirectory_of_prepared_nil {maxDepth : Int} {patterns : List String}
    {node : FSEntry} (pfx : String) (isLast : Bool) (depth : Nat)
    (h : preparedChildren patterns (childEntries node) = []) :
    scanDirectory maxDepth patterns node pfx isLast depth = [] := by
  rw [scanDirectory]
  split
  · rfl
  · rw [h]
    rfl

theorem intercalate_singleton (sep x : String) : String.intercalate sep [x] = x := rfl

theorem treeOutput_of_scan_nil {rootName : String} {maxDepth : Int}
    {patterns : List String} {t : FSEntry}
    (h : scanDirectory maxDepth patterns t "" true 0 = []) :
    treeOutput rootName maxDepth patterns t = rootName ++ "/" := by
  rw [treeOutput, h]
  exact intercalate_singleton _ _

/-- The order the specification requires between consecutive siblings:
directories strictly before files, and ascending names under the documented
collation within one kind. -/
def entryBefore (a b : FSEntry) : Bool :=
  (a.isDirectory && !b.isDirectory) ||
    (a.isDirectory == b.isDirectory && decide (localeCompare a.name b.name < 0))

theorem entryBefore_of_lt {a b : FSEntry} (h : entryCmp a b < 0) :
    entryBefore a b = true := by
  cases ha : a.isDirectory <;> cases hb : b.isDirectory
  · simp [entryCmp, ha, hb] at h
    simp [entryBefore, ha, hb, h]
  · simp [entryCmp, ha, hb] at h
  · simp [entryBefore, ha, hb]
  · simp [entryCmp, ha, hb] at h
    simp [entryBefore, ha, hb, h]

/-- C1: on the specification's own example (root containing `b.txt`, empty
`a/`, and `c/` containing `z.txt`) the code renders the body as
`├── a/`, `├── c/`, `    └── z.txt`, `└── b.txt`: the line for `z.txt`
carries four blanks although its ancestor `c/` is not the last sibling,
because `newPrefix` is computed from the call's own `isLast` argument (the
status of the grandparent) instead of the entry's ancestor flags.  The
second conjunct records that this differs from the `│   └── z.txt` the
specification requires. -/
theorem c1_code_renders_blank_prefix_on_example :
    scanDirectory 3 []
        (.dir "root" [.file "b.txt", .dir "a" [], .dir "c" [.file "z.txt"]])
        "" true 0 =
      ["├── a/", "├── c/", "    └── z.txt", "└── b.txt"] ∧
    ("    └── z.txt" : String) ≠ "│   └── z.txt" := by
  constructor
  · rw [scanDirectory_eq_fuel 3 [] 5 _ "" true 0 (by norm_num)]
    decide
  · decide

/-- C2: the walker with patterns equals the walker with no patterns on the
pruned tree, so an entry is dropped by the exclusion mechanism exactly when
its own name or an ancestor name below the root contains a pattern (second
conjunct: the pruned tree keeps exactly the clean paths, in order), the
whole subtree of an excluded directory disappearing with it; an empty
pattern set prunes nothing (third conjunct). -/
theorem c2_exclusion_characterization (maxDepth : Int) (patterns : List String)
    (t : FSEntry) (pfx : String) (isLast : Bool) (depth : Nat) :
    scanDirectory maxDepth patterns t pfx isLast depth =
      scanDirectory maxDepth [] (pruneEntry patterns t) pfx isLast depth ∧
    entryPaths (pruneEntry patterns t) =
      (entryPaths t).filter (fun q => q.all (fun nm => !(isExcluded patterns nm))) ∧
    pruneEntry [] t = t := by
  refine ⟨?_, entryPaths_prune patterns t, pruneEntry_nil_patterns t⟩
  rw [scanDirectory_eq_fuel maxDepth patterns ((maxDepth + 1 - depth).toNat + 1)
      t pfx isLast depth (fuel_bound maxDepth depth),
    scanDirectory_eq_fuel maxDepth [] ((maxDepth + 1 - depth).toNat + 1)
      (pruneEntry patterns t) pfx isLast depth (fuel_bound maxDepth depth)]
  exact scanF_prune maxDepth patterns _ t pfx isLast depth

/-- C3: the per-level list the walker iterates over (sorted then filtered
children, the list `scanDirectory` ranges over at every level) places every
directory before every file and is strictly ascending by name under the
documented collation within each kind, whenever the sibling names are
distinct, as they are in a real directory listing. -/
theorem c3_siblings_sorted (patterns : List String) (cs : List FSEntry)
    (h : distinctNames cs = true) :
    (preparedChildren patterns cs).Pairwise (fun a b => entryBefore a b = true) := by
  have hn := (distinctNames_iff_nodup cs).mp h
  have hlt := pairwise_lt_sortEntries hn
  have hsub : (preparedChildren patterns cs).Sublist (sortEntries cs) :=
    List.filter_sublist _
  exact (hlt.sublist hsub).imp entryBefore_of_lt

/-- C3 witness: a concrete sibling list with distinct names, one pattern
filtering out one directory. -/
theorem c3_siblings_sorted_witness :
    distinctNames [.file "b.txt", .dir "c" [], .file "a.txt", .dir "a" []] = true ∧
    (preparedChildren ["c"]
        [.file "b.txt", .dir "c" [], .file "a.txt", .dir "a" []]).Pairwise
      (fun a b => entryBefore a b = true) :=
  ⟨by decide, c3_siblings_sorted ["c"] _ (by decide)⟩

/-- C4 counterexample: with `maxDepth = 0` the walker does emit the
immediate children of the root, refuting the claim that no entries at all
are emitted: on a root containing one file the output is one line, not
empty. -/
theorem c4_counterexample_children_emitted :
    scanDirectory 0 [] (.dir "root" [.file "b.txt"]) "" true 0 = ["└── b.txt"] ∧
    (["└── b.txt"] : List String) ≠ [] := by
  constructor
  · rw [scanDirectory_eq_fuel 0 [] 2 _ "" true 0 (by norm_num)]
    decide
  · decide

/-- C4 amended: with `maxDepth = 0` the root call emits exactly one line
per prepared immediate child of the root and nothing deeper, since the
recursive calls at depth 1 are cut off by the guard. -/
theorem c4_maxDepth_zero_children_only (patterns : List String) (t : FSEntry)
    (pfx : String) (isLast : Bool) :
    scanDirectory 0 patterns t pfx isLast 0 =
      (withLastFlags (preparedChildren patterns (childEntries t))).map
        (fun q =>
          if q.1.isDirectory then
            pfx ++ (if q.2 then "└── " else "├── ") ++ q.1.name ++ "/"
          else pfx ++ (if q.2 then "└── " else "├── ") ++ q.1.name) := by
  rw [scanDirectory_eq_fuel 0 patterns 1 t pfx isLast 0 (by norm_num), scanDirectoryF]
  rw [if_neg (by omega)]
  rw [← flatten_map_singleton (withLastFlags (preparedChildren patterns (childEntries t)))
    (fun q =>
      if q.1.isDirectory then
        pfx ++ (if q.2 then "└── " else "├── ") ++ q.1.name ++ "/"
      else pfx ++ (if q.2 then "└── " else "├── ") ++ q.1.name)]
  congr 1
  refine List.map_congr_left ?_
  intro q _
  by_cases hq : q.1.isDirectory
  · simp only [hq, if_true]
    rfl
  · simp [hq]

/-- C5: the walker never shows anything beyond the depth limit: its output
on a tree equals its output on the tree truncated at the limit (first
conjunct), and every entry of the truncated tree reached from depth counter
`depth` lies at depth at most `maxDepth` (second conjunct, path length
counted from the current node: the root call has `depth = 0` and the root's
immediate children are at depth 0 = path length 1 minus one). -/
theorem c5_depth_limited (maxDepth : Int) (patterns : List String) (t : FSEntry)
    (pfx : String) (isLast : Bool) (depth : Nat) :
    scanDirectory maxDepth patterns t pfx isLast depth =
      scanDirectory maxDepth patterns (truncEntry maxDepth depth t)
        pfx isLast depth ∧
    ((entryPaths (truncEntry maxDepth depth t)).all
      (fun q => decide ((depth : Int) + q.length ≤ maxDepth + 1))) = true := by
  refine ⟨?_, entryPaths_trunc_bound maxDepth t depth⟩
  rw [scanDirectory_eq_fuel maxDepth patterns ((maxDepth + 1 - depth).toNat + 1)
      t pfx isLast depth (fuel_bound maxDepth depth),
    scanDirectory_eq_fuel maxDepth patterns ((maxDepth + 1 - depth).toNat + 1)
      (truncEntry maxDepth depth t) pfx isLast depth (fuel_bound maxDepth depth)]
  exact scanF_trunc maxDepth patterns _ t pfx isLast depth

/-- C6 counterexample: two different directories, `a.b` and `a-b`, each
containing a file `a.txt`, receive the same sanitized identifier `root_a_b`,
so the two files receive the same identifier `root_a_b_a_txt`: the identical
node-declaration line appears twice in the generated diagram, refuting the
claimed uniqueness. -/
theorem c6_counterexample_id_collision :
    nodeId (nodeId "root" "a.b") "a.txt" = nodeId (nodeId "root" "a-b") "a.txt" ∧
    (scanDirectoryMermaid 3 []
        (.dir "root" [.dir "a.b" [.file "a.txt"], .dir "a-b" [.file "a.txt"]])
        "root" 0).count "    root_a_b_a_txt[a.txt]" = 2 := by
  constructor
  · decide
  · rw [scanDirectoryMermaid_eq_fuel 3 [] 5 _ "root" 0 (by norm_num)]
    decide

/-- C6 amended: the identifier of a child is its parent identifier, an
underscore, and the sanitized name, so children with equal names hanging
under parents whose identifiers differ do get distinct identifiers; collisions
arise exactly when sanitization already collapsed the parent identifiers. -/
theorem c6_distinct_parents_distinct_ids (p₁ p₂ nm : String) (h : p₁ ≠ p₂) :
    nodeId p₁ nm ≠ nodeId p₂ nm := by
  intro he
  apply h
  apply stringDataEq
  have hd : (p₁ ++ "_" ++ sanitizeName nm).data = (p₂ ++ "_" ++ sanitizeName nm).data := by
    rw [show p₁ ++ "_" ++ sanitizeName nm = nodeId p₁ nm from rfl,
      show p₂ ++ "_" ++ sanitizeName nm = nodeId p₂ nm from rfl, he]
  have hd' : p₁.data ++ ("_" ++ sanitizeName nm).data =
      p₂.data ++ ("_" ++ sanitizeName nm).data := by
    simpa [String.append_assoc] using hd
  exact List.append_cancel_right hd'

/-- C6 amended witness: two sibling directories `x` and `y` give distinct
identifiers to their `a.txt` children. -/
theorem c6_distinct_parents_distinct_ids_witness :
    (nodeId "root" "x" ≠ nodeId "root" "y") ∧
    nodeId (nodeId "root" "x") "a.txt" ≠ nodeId (nodeId "root" "y") "a.txt" :=
  ⟨by decide, c6_distinct_parents_distinct_ids _ _ "a.txt" (by decide)⟩

/-- C7: the emitted line sequence does not depend on the order in which the
filesystem lists any directory: on two snapshots that list the same tree
(same names and kinds, every listing a permutation, matching subtrees), with
distinct sibling names as real directories have, the walker produces the
identical output; determinism for a fixed snapshot is definitional since the
embedded walker is a function of the snapshot. -/
theorem c7_output_independent_of_listing_order (maxDepth : Int)
    (patterns : List String) (t₁ t₂ : FSEntry) (pfx : String) (isLast : Bool)
    (depth : Nat) (hperm : treePermP t₁ t₂) (hnodup : deepNodup t₁ = true) :
    scanDirectory maxDepth patterns t₁ pfx isLast depth =
      scanDirectory maxDepth patterns t₂ pfx isLast depth := by
  rw [scanDirectory_eq_fuel maxDepth patterns ((maxDepth + 1 - depth).toNat + 1)
      t₁ pfx isLast depth (fuel_bound maxDepth depth),
    scanDirectory_eq_fuel maxDepth patterns ((maxDepth + 1 - depth).toNat + 1)
      t₂ pfx isLast depth (fuel_bound maxDepth depth)]
  exact scanF_treePerm maxDepth patterns _ t₁ t₂ pfx isLast depth hperm hnodup

/-- C7 witness: a root listed as `a, b` and the same root listed as `b, a`
produce the same output. -/
theorem c7_output_independent_witness :
    treePermP (.dir "r" [.file "a", .file "b"]) (.dir "r" [.file "b", .file "a"]) ∧
    deepNodup (.dir "r" [.file "a", .file "b"]) = true ∧
    scanDirectory 3 [] (.dir "r" [.file "a", .file "b"]) "" true 0 =
      scanDirectory 3 [] (.dir "r" [.file "b", .file "a"]) "" true 0 := by
  have hperm : treePermP (.dir "r" [.file "a", .file "b"])
      (.dir "r" [.file "b", .file "a"]) := by
    simp only [treePermP, childrenPermP]
    refine ⟨by trivial, [.file "a", .file "b"],
      List.Perm.swap (FSEntry.file "a") (FSEntry.file "b") [], ?_⟩
    simp only [pointwiseP]
    exact ⟨treePermP_refl _, treePermP_refl _, trivial⟩
  exact ⟨hperm, by decide,
    c7_output_independent_of_listing_order 3 [] _ _ "" true 0 hperm (by decide)⟩

/-- C8: when a directory listing anywhere in the walk fails, the whole
text-tree call returns the error text and the output file keeps its previous
contents: the file is written only in the success branch, after the complete
tree string exists. -/
theorem c8_listing_failure_aborts_without_write (rootName : String)
    (maxDepth : Int) (patterns : List String) (t : FST)
    (fileBefore : Option String) (e : String)
    (h : scanDirectoryE maxDepth patterns t "" true 0 = .error e) :
    runFileStructureToolE rootName maxDepth patterns t fileBefore =
      ("Error: " ++ e, fileBefore) := by
  rw [runFileStructureToolE, h]

/-- C8 witness: a root whose subdirectory fails to list; the error
propagates out of the recursion and the pre-existing file contents survive. -/
theorem c8_listing_failure_witness :
    scanDirectoryE 3 []
        (.dir "r" (.ok [.dir "bad" (.error "EACCES: permission denied")]))
        "" true 0 = .error "EACCES: permission denied" ∧
    runFileStructureToolE "r" 3 []
        (.dir "r" (.ok [.dir "bad" (.error "EACCES: permission denied")]))
        (some "old contents") =
      ("Error: " ++ "EACCES: permission denied", some "old contents") := by
  have h : scanDirectoryE 3 []
      (.dir "r" (.ok [.dir "bad" (.error "EACCES: permission denied")]))
      "" true 0 = .error "EACCES: permission denied" := by
    rw [scanDirectoryE_eq_fuel 3 [] 5 _ "" true 0 (by norm_num)]
    rfl
  exact ⟨h, c8_listing_failure_aborts_without_write "r" 3 [] _ _ _ h⟩

/-- C9: when the pattern set contains the empty string every name matches,
so the walker emits nothing on any tree and the assembled text-tree output
is exactly the root header line. -/
theorem c9_empty_string_pattern_excludes_all (maxDepth : Int)
    (patterns : List String) (t : FSEntry) (pfx : String) (isLast : Bool)
    (depth : Nat) (rootName : String) (h : "" ∈ patterns) :
    scanDirectory maxDepth patterns t pfx isLast depth = [] ∧
    treeOutput rootName maxDepth patterns t = rootName ++ "/" := by
  have hscan : ∀ (pfx' : String) (isLast' : Bool) (depth' : Nat),
      scanDirectory maxDepth patterns t pfx' isLast' depth' = [] :=
    fun pfx' isLast' depth' =>
      scanDirectory_of_prepared_nil pfx' isLast' depth'
        (preparedChildren_nil_of_empty_pattern h _)
  exact ⟨hscan pfx isLast depth, treeOutput_of_scan_nil (hscan "" true 0)⟩

/-- C9 witness: pattern set `[""]` on a root with one file. -/
theorem c9_empty_string_pattern_witness :
    ("" ∈ ([""] : List String)) ∧
    scanDirectory 3 [""] (.dir "root" [.file "a.txt"]) "" true 0 = [] ∧
    treeOutput "root" 3 [""] (.dir "root" [.file "a.txt"]) = "root" ++ "/" :=
  ⟨by decide,
    c9_empty_string_pattern_excludes_all 3 [""] _ "" true 0 "root" (by decide)⟩

/-- C10: a negative `maxDepth` is outside the documented precondition but
still safe: the depth guard already holds at the root call, the walker
totally returns the empty sequence, and the tool output is just the root
header line. -/
theorem c10_negative_maxDepth_safe (maxDepth : Int) (patterns : List String)
    (t : FSEntry) (pfx : String) (isLast : Bool) (depth : Nat)
    (rootName : String) (h : maxDepth < 0) :
    scanDirectory maxDepth patterns t pfx isLast depth = [] ∧
    treeOutput rootName maxDepth patterns t = rootName ++ "/" := by
  have hscan : ∀ (pfx' : String) (isLast' : Bool) (depth' : Nat),
      scanDirectory maxDepth patterns t pfx' isLast' depth' = [] := by
    intro pfx' isLast' depth'
    rw [scanDirectory, if_pos (by omega)]
  exact ⟨hscan pfx isLast depth, treeOutput_of_scan_nil (hscan "" true 0)⟩

/-- C10 witness: `maxDepth = -1` on a root with one file. -/
theorem c10_negative_maxDepth_witness :
    ((-1 : Int) < 0) ∧
    scanDirectory (-1) [] (.dir "root" [.file "a.txt"]) "" true 0 = [] ∧
    treeOutput "root" (-1) [] (.dir "root" [.file "a.txt"]) = "root" ++ "/" :=
  ⟨by decide,
    c10_negative_maxDepth_safe (-1) [] _ "" true 0 "root" (by decide)⟩
